import Mathlib

/-!
Verification of the sliced-image editor core (`src/utils/math.ts`,
`src/App.tsx`, `src/components/Inspector.tsx`).

The TypeScript code works over JS numbers; we embed them as rationals `ℚ`,
so all arithmetic identities are exact (the spec tolerates floating-point
rounding, which the rational model makes exact).  JS objects keyed by the
string `"row-col"` (the tile map) are embedded as association lists over
`String` with first-match lookup; all functions are executable.
-/

namespace SlicedImage

/-- `TileMode` from `src/types.ts`. -/
inductive TileMode where
  | Fixed
  | Stretch
  | Repeat
  | Hidden
deriving DecidableEq, Repr

/-- `TileConfig` from `src/types.ts`: the per-cell record `{ mode }`. -/
structure TileConfig where
  mode : TileMode
deriving DecidableEq, Repr

/-- `TileMap` from `src/types.ts`: a JS object mapping `"row-col"` keys to
tile configs, embedded as an association list with first-match lookup. -/
abbrev TileMap := List (String × TileConfig)

/-- `Axis` from `src/types.ts`: `{ id, value }` with `value` a percentage
in `[0,100]` of the source dimension. -/
structure Axis where
  id : String
  value : ℚ
deriving DecidableEq, Repr

/-- `Segment` from `src/utils/math.ts`. -/
structure Segment where
  start : ℚ
  length : ℚ
  isFixed : Bool
  index : ℕ
deriving DecidableEq, Repr

/-- `DestSegment` from `src/utils/math.ts`. -/
structure DestSegment where
  start : ℚ
  length : ℚ
  srcIndex : ℕ
deriving DecidableEq, Repr

/-- The JS key string `` `${row}-${col}` `` used by `getEffectiveTileMode`
and `generateJSON`. -/
def tileKey (row col : ℕ) : String :=
  toString row ++ "-" ++ toString col

/-- The key-level view of the tile-mode resolver: the config stored for a
key in `tiles`, defaulting to mode `Stretch` when the key is absent. -/
def effectiveConfigOfKey (tiles : TileMap) (key : String) : TileConfig :=
  ⟨match tiles.lookup key with
    | some cfg => cfg.mode
    | none => TileMode.Stretch⟩

/-- `getEffectiveTileMode` from `src/utils/math.ts`: look the key
`"row-col"` up in the map; present entries give their stored mode, absent
ones default to `Stretch`. -/
def getEffectiveTileMode (tiles : TileMap) (row col : ℕ) : TileMode :=
  match tiles.lookup (tileKey row col) with
  | some cfg => cfg.mode
  | none => TileMode.Stretch

/-- `generateDefaultScaling` from `src/utils/math.ts`:
`Array.from({length: numSegments}).map((_, i) => i % 2 !== 0)`. -/
def generateDefaultScaling (numSegments : ℕ) : List Bool :=
  (List.range numSegments).map (fun i => i % 2 != 0)

/-- The JS array sort `[...axes].sort((a, b) => a.value - b.value)`:
a stable sort by ascending `value`. -/
def sortAxes (axes : List Axis) : List Axis :=
  axes.mergeSort (fun a b => a.value ≤ b.value)

/-- The boundary list of `calculateSegments`:
`[...sorted.map(a => (a.value / 100) * totalSize), totalSize]`. -/
def boundariesOf (axes : List Axis) (totalSize : ℚ) : List ℚ :=
  (sortAxes axes).map (fun a => a.value / 100 * totalSize) ++ [totalSize]

/-- The `boundaries.forEach` loop body of `calculateSegments`: walk the
boundaries with index `i` and running `cursor`, emitting a segment only when
its length is positive; `scalingArray[i] ?? false` becomes `getD i false`. -/
def segLoop (scalingArray : List Bool) : List ℚ → ℕ → ℚ → List Segment
  | [], _, _ => []
  | b :: bs, i, cursor =>
    let isScalable := scalingArray.getD i false
    let length := b - cursor
    if 0 < length then
      ⟨cursor, length, !isScalable, i⟩ :: segLoop scalingArray bs (i + 1) b
    else
      segLoop scalingArray bs (i + 1) b

/-- `calculateSegments` from `src/utils/math.ts`. -/
def calculateSegments (axes : List Axis) (totalSize : ℚ)
    (scalingArray : List Bool) : List Segment :=
  segLoop scalingArray (boundariesOf axes totalSize) 0 0

/-- `totalFixed` of `calculateDestinationSegments`: the summed length of the
fixed source segments. -/
def totalFixedOf (srcSegments : List Segment) : ℚ :=
  ((srcSegments.filter (fun s => s.isFixed)).map (fun s => s.length)).sum

/-- `totalScaleSourceLength` of `calculateDestinationSegments`: the summed
length of the scalable source segments. -/
def totalScaleOf (srcSegments : List Segment) : ℚ :=
  ((srcSegments.filter (fun s => !s.isFixed)).map (fun s => s.length)).sum

/-- The per-segment destination length of `calculateDestinationSegments`. -/
def destLengthOf (scaleFixed availableScaleSpace totalScale : ℚ)
    (seg : Segment) : ℚ :=
  if seg.isFixed then seg.length * scaleFixed
  else if totalScale = 0 then 0
  else seg.length / totalScale * availableScaleSpace

/-- The `srcSegments.forEach` loop of `calculateDestinationSegments`:
emit each destination segment at the running cursor, then advance the cursor
by the emitted length. -/
def destLoop (scaleFixed availableScaleSpace totalScale : ℚ) :
    List Segment → ℚ → List DestSegment
  | [], _ => []
  | seg :: rest, cursor =>
    let destLength := destLengthOf scaleFixed availableScaleSpace totalScale seg
    ⟨cursor, destLength, seg.index⟩ ::
      destLoop scaleFixed availableScaleSpace totalScale rest (cursor + destLength)

/-- `calculateDestinationSegments` from `src/utils/math.ts`. -/
def calculateDestinationSegments (srcSegments : List Segment)
    (targetSize : ℚ) : List DestSegment :=
  let totalFixed := totalFixedOf srcSegments
  let availableScaleSpace := max 0 (targetSize - totalFixed)
  let scaleFixed := if targetSize < totalFixed then targetSize / totalFixed else 1
  let totalScale := totalScaleOf srcSegments
  destLoop scaleFixed availableScaleSpace totalScale srcSegments 0

/-- `NSliceConfig` from `src/types.ts`, as consumed by `handleLoadJson`:
fields that a loaded JSON document may omit are `Option`s (JS `undefined`). -/
structure NSliceConfig where
  filename : Option String
  xAxes : Option (List Axis)
  yAxes : Option (List Axis)
  tiles : Option TileMap
  rowScaling : Option (List Bool)
  colScaling : Option (List Bool)
deriving Repr

/-- The slice of `App`'s React state that the document codec reads and
writes: `filename`, the axis lists, the sparse tile map and the two
scaling-flag arrays. -/
structure AppState where
  filename : String
  xAxes : List Axis
  yAxes : List Axis
  tiles : TileMap
  rowScaling : List Bool
  colScaling : List Bool
deriving Repr

/-- The dense-tile-map loop of `generateJSON` in `src/App.tsx`: for every
`(r, c)` with `r < numRows` and `c < numCols`, write
`explicitTiles[key] = { mode: getEffectiveTileMode(tiles, r, c) }`
(row-major order, as in the nested `for` loops). -/
def denseTiles (tiles : TileMap) (numRows numCols : ℕ) : TileMap :=
  (List.range numRows).flatMap (fun r =>
    (List.range numCols).map (fun c =>
      (tileKey r c, ⟨getEffectiveTileMode tiles r c⟩)))

/-- `generateJSON` from `src/App.tsx` (the config value it serializes):
`numRows = sortedY.length + 1`, `numCols = sortedX.length + 1`, the tile map
is densified, every other field is copied. -/
def generateJSON (s : AppState) : NSliceConfig :=
  let numRows := (sortAxes s.yAxes).length + 1
  let numCols := (sortAxes s.xAxes).length + 1
  { filename := some s.filename
    xAxes := some s.xAxes
    yAxes := some s.yAxes
    tiles := some (denseTiles s.tiles numRows numCols)
    rowScaling := some s.rowScaling
    colScaling := some s.colScaling }

/-- `handleLoadJson` from `src/App.tsx`: missing axis lists and tile map
fall back to empty (`config.xAxes || []`, `config.tiles || {}`); a missing
scaling array is regenerated as
`generateDefaultScaling((config.yAxes?.length || 0) + 1)` (resp. `xAxes`);
a missing filename leaves the previous one; axis values are stored
verbatim. -/
def handleLoadJson (s : AppState) (config : NSliceConfig) : AppState :=
  { filename := config.filename.getD s.filename
    xAxes := config.xAxes.getD []
    yAxes := config.yAxes.getD []
    tiles := config.tiles.getD []
    rowScaling := config.rowScaling.getD
      (generateDefaultScaling ((config.yAxes.getD []).length + 1))
    colScaling := config.colScaling.getD
      (generateDefaultScaling ((config.xAxes.getD []).length + 1)) }

/-- `updateAxisValue` from `src/components/Inspector.tsx`, for one axis
list (the `type` argument only chooses between the x and the y list).
`parseFloat`'s result is an `Option ℚ`: `none` models `NaN`, on which the
update is a no-op; otherwise the value is clamped by
`Math.min(100, Math.max(0, val))` and assigned to the matching axis. -/
def updateAxisValue (axes : List Axis) (id : String) (newVal : Option ℚ) :
    List Axis :=
  match newVal with
  | none => axes
  | some val =>
    let clamped := min 100 (max 0 val)
    axes.map (fun a => if a.id = id then { a with value := clamped } else a)

/-- `handleAddAxis` from `src/App.tsx`, for one dimension: append the new
axis `{ id: newId, value: 50 }`, then append one scaling flag whose value is
`newSegmentIndex % 2 !== 0` with `newSegmentIndex = newAxes.length`. -/
def handleAddAxis (axes : List Axis) (scaling : List Bool) (newId : String) :
    List Axis × List Bool :=
  let newAxis : Axis := ⟨newId, 50⟩
  let newAxes := axes ++ [newAxis]
  let newSegmentIndex := newAxes.length
  (newAxes, scaling ++ [newSegmentIndex % 2 != 0])

/-- `handleDeleteAxis` from `src/App.tsx`, for one dimension: drop the axes
whose id matches (`axes.filter(a => a.id !== id)`) and drop the last scaling
flag (`prev.slice(0, -1)`). -/
def handleDeleteAxis (axes : List Axis) (scaling : List Bool) (id : String) :
    List Axis × List Bool :=
  (axes.filter (fun a => a.id ≠ id), scaling.dropLast)

/-! ### Helper lemmas -/

/-- Each destination segment's length is `destLengthOf` of the parallel
source segment, whatever the starting cursor. -/
theorem destLoop_zip_length (sf av ts : ℚ) :
    ∀ (src : List Segment) (cursor : ℚ),
      ∀ p ∈ src.zip (destLoop sf av ts src cursor),
        p.2.length = destLengthOf sf av ts p.1 := by
  intro src
  induction src with
  | nil => intro cursor p hp; simp [destLoop] at hp
  | cons seg rest ih =>
    intro cursor p hp
    simp only [destLoop, List.zip_cons_cons, List.mem_cons] at hp
    rcases hp with h | h
    · subst h; rfl
    · exact ih _ p h

/-- `destLoop` produces one destination segment per source segment. -/
theorem destLoop_length (sf av ts : ℚ) :
    ∀ (src : List Segment) (cursor : ℚ),
      (destLoop sf av ts src cursor).length = src.length := by
  intro src
  induction src with
  | nil => intro cursor; rfl
  | cons seg rest ih => intro cursor; simp [destLoop, ih]

/-- The destination lengths are exactly `destLengthOf` mapped over the
source segments. -/
theorem destLoop_map_length (sf av ts : ℚ) :
    ∀ (src : List Segment) (cursor : ℚ),
      (destLoop sf av ts src cursor).map (fun d => d.length) =
        src.map (destLengthOf sf av ts) := by
  intro src
  induction src with
  | nil => intro cursor; rfl
  | cons seg rest ih => intro cursor; simp [destLoop, ih, destLengthOf]

/-- Splitting a mapped sum along a Boolean predicate. -/
theorem sum_map_split (p : Segment → Bool) (f : Segment → ℚ) (l : List Segment) :
    ((l.filter p).map f).sum + ((l.filter (fun a => !p a)).map f).sum =
      (l.map f).sum := by
  induction l with
  | nil => simp
  | cons a l ih =>
    by_cases h : p a <;> simp [List.filter_cons, h, ← ih] <;> ring

/-! ### C8: tile mode resolution -/

/-- C8: for every tile map and every `(row, col)` pair,
`getEffectiveTileMode` returns the stored mode when the key `"row-col"` is
present in the map, and returns `Stretch` (not `Fixed`) when it is absent. -/
theorem getEffectiveTileMode_spec (tiles : TileMap) (row col : ℕ) :
    (∀ cfg, tiles.lookup (tileKey row col) = some cfg →
      getEffectiveTileMode tiles row col = cfg.mode) ∧
    (tiles.lookup (tileKey row col) = none →
      getEffectiveTileMode tiles row col = TileMode.Stretch) := by
  constructor
  · intro cfg h; simp [getEffectiveTileMode, h]
  · intro h; simp [getEffectiveTileMode, h]

/-- Witness for C8 on a concrete one-entry map: the stored cell yields its
stored mode, and an unset cell yields `Stretch`. -/
theorem getEffectiveTileMode_spec_witness :
    getEffectiveTileMode [("0-0", ⟨TileMode.Repeat⟩)] 0 0 = TileMode.Repeat ∧
    getEffectiveTileMode [("0-0", ⟨TileMode.Repeat⟩)] 0 1 = TileMode.Stretch :=
  ⟨(getEffectiveTileMode_spec [("0-0", ⟨TileMode.Repeat⟩)] 0 0).1
      ⟨TileMode.Repeat⟩ (by decide),
   (getEffectiveTileMode_spec [("0-0", ⟨TileMode.Repeat⟩)] 0 1).2 (by decide)⟩

/-! ### C9: default scaling regeneration on load -/

/-- C9: `generateDefaultScaling n` is the alternating pattern
`[i % 2 ≠ 0 for i in 0..n)`, in particular `generateDefaultScaling 3 =
[false, true, false]` and `generateDefaultScaling 1 = [false]`; and when a
loaded document lacks a `rowScaling` (resp. `colScaling`) array,
`handleLoadJson` regenerates it as `generateDefaultScaling (axisCount + 1)`
without error. -/
theorem generateDefaultScaling_spec :
    generateDefaultScaling 3 = [false, true, false] ∧
    generateDefaultScaling 1 = [false] ∧
    (∀ n, generateDefaultScaling n = (List.range n).map (fun i => i % 2 != 0)) ∧
    (∀ (s : AppState) (config : NSliceConfig), config.rowScaling = none →
      (handleLoadJson s config).rowScaling =
        generateDefaultScaling ((config.yAxes.getD []).length + 1)) ∧
    (∀ (s : AppState) (config : NSliceConfig), config.colScaling = none →
      (handleLoadJson s config).colScaling =
        generateDefaultScaling ((config.xAxes.getD []).length + 1)) := by
  refine ⟨by decide, by decide, fun n => rfl, ?_, ?_⟩ <;>
    · intro s config h
      simp [handleLoadJson, h]

/-- Witness for C9 on a concrete legacy document with both scaling arrays
missing and one y-axis: `rowScaling` is regenerated for two segments. -/
theorem generateDefaultScaling_spec_witness :
    (handleLoadJson ⟨"f", [], [], [], [], []⟩
        ⟨none, none, some [⟨"y1", 40⟩], none, none, none⟩).rowScaling =
      generateDefaultScaling 2 := by
  have h := generateDefaultScaling_spec.2.2.2.1 ⟨"f", [], [], [], [], []⟩
    ⟨none, none, some [⟨"y1", 40⟩], none, none, none⟩ rfl
  simpa using h

/-! ### C4: uniform shrink of fixed segments -/

/-- C4: when no segment is scalable and the target size is below the total
fixed length, every destination length is the source length scaled by the
uniform factor `S / totalFixed`. -/
theorem uniform_shrink (src : List Segment) (S : ℚ)
    (hfix : ∀ s ∈ src, s.isFixed = true) (hS : S < totalFixedOf src) :
    ∀ p ∈ src.zip (calculateDestinationSegments src S),
      p.2.length = p.1.length * (S / totalFixedOf src) := by
  intro p hp
  simp only [calculateDestinationSegments] at hp
  have h := destLoop_zip_length _ _ _ src 0 p hp
  obtain ⟨sg, d⟩ := p
  have hmem := (List.of_mem_zip hp).1
  have hsf : (if S < totalFixedOf src then S / totalFixedOf src else 1) =
      S / totalFixedOf src := if_pos hS
  simp only at h
  rw [h, destLengthOf, hfix sg hmem, hsf]
  simp

/-- Witness for C4: a single fixed segment of length 10 with target 5 is
shrunk to length `10 * (5 / 10) = 5`. -/
theorem uniform_shrink_witness :
    (⟨(0:ℚ), 5, 0⟩ : DestSegment).length =
      (⟨(0:ℚ), 10, true, 0⟩ : Segment).length *
        (5 / totalFixedOf [⟨0, 10, true, 0⟩]) := by
  refine uniform_shrink [⟨0, 10, true, 0⟩] 5 ?_ ?_
    ((⟨0, 10, true, 0⟩ : Segment), (⟨0, 5, 0⟩ : DestSegment)) ?_
  · intro s hs
    simp only [List.mem_singleton] at hs
    rw [hs]
  · norm_num [totalFixedOf]
  · norm_num [calculateDestinationSegments, destLoop, destLengthOf,
      totalFixedOf, totalScaleOf]

/-! ### C6: axis value clamping -/

/-- C6 counterexample: `handleLoadJson` stores loaded axis values verbatim,
so a document with an axis value of 150 produces a state whose axis value
is 150, outside `[0,100]` — loading does not clamp. -/
theorem handleLoadJson_does_not_clamp :
    ¬ (∀ (s : AppState) (config : NSliceConfig),
        ∀ a ∈ (handleLoadJson s config).xAxes, a.value ≤ 100) := by
  intro h
  have := h ⟨"f", [], [], [], [], []⟩
    ⟨none, some [⟨"a", 150⟩], none, none, none, none⟩
    ⟨"a", 150⟩ (by simp [handleLoadJson])
  norm_num at this

/-- C6 amended: numeric entry (`updateAxisValue`) clamps the assigned value
to `[0,100]` and never rejects an out-of-range number — every axis in the
updated list is either an untouched original axis or carries a value in
`[0,100]`; loading a document, in contrast, stores the loaded axis lists
verbatim without clamping. -/
theorem axis_value_clamping (axes : List Axis) (id : String) (newVal : Option ℚ)
    (s : AppState) (config : NSliceConfig) :
    (∀ a ∈ updateAxisValue axes id newVal,
      a ∈ axes ∨ (0 ≤ a.value ∧ a.value ≤ 100)) ∧
    (handleLoadJson s config).xAxes = config.xAxes.getD [] ∧
    (handleLoadJson s config).yAxes = config.yAxes.getD [] := by
  refine ⟨?_, rfl, rfl⟩
  intro a ha
  match newVal with
  | none => exact Or.inl ha
  | some val =>
    simp only [updateAxisValue, List.mem_map] at ha
    obtain ⟨b, hb, hba⟩ := ha
    by_cases hid : b.id = id
    · right
      rw [← hba]
      simp only [hid, if_pos]
      constructor
      · exact le_min (by norm_num) (le_max_left 0 val)
      · exact min_le_left 100 (max 0 val)
    · left
      rw [← hba]
      simp only [hid, if_neg, ite_false]
      exact hb

/-- Witness for C6: entering 150 for axis `"a"` clamps it to 100 (which is
not an original axis, so the clamped disjunct is the one that holds). -/
theorem axis_value_clamping_witness :
    (⟨"a", 100⟩ : Axis) ∈ updateAxisValue [⟨"a", 150⟩] "a" (some 150) ∧
    ((⟨"a", 100⟩ : Axis) ∈ ([⟨"a", 150⟩] : List Axis) ∨
      (0 ≤ ((⟨"a", 100⟩ : Axis)).value ∧ ((⟨"a", 100⟩ : Axis)).value ≤ 100)) := by
  have hmem : (⟨"a", 100⟩ : Axis) ∈ updateAxisValue [⟨"a", 150⟩] "a" (some 150) := by
    simp only [updateAxisValue, List.map_cons, List.map_nil]
    norm_num
  exact ⟨hmem,
    (axis_value_clamping [⟨"a", 150⟩] "a" (some 150) ⟨"f", [], [], [], [], []⟩
      ⟨none, none, none, none, none, none⟩).1 ⟨"a", 100⟩ hmem⟩

/-! ### C10: add/delete axis keep scaling flags in sync -/

/-- Filtering out the axes matching `id` removes exactly as many entries as
there are matches. -/
theorem length_filter_ne (axes : List Axis) (id : String) :
    (axes.filter (fun a => a.id ≠ id)).length +
      axes.countP (fun a => a.id = id) = axes.length := by
  induction axes with
  | nil => simp
  | cons a l ih =>
    simp only [ne_eq, decide_not] at ih ⊢
    rw [List.filter_cons, List.countP_cons]
    by_cases h : a.id = id <;> simp [h] <;> omega

/-- C10: `handleAddAxis` appends exactly one axis and one scaling flag whose
value is `newAxesLength % 2 ≠ 0`, and `handleDeleteAxis` removes exactly the
last scaling flag, leaving every remaining flag unchanged; both preserve the
invariant `scaling.length = axes.length + 1` (for delete, provided the
deleted id occurs exactly once). -/
theorem axis_scaling_sync (axes : List Axis) (scaling : List Bool)
    (newId id : String) :
    ((handleAddAxis axes scaling newId).1 = axes ++ [⟨newId, 50⟩]) ∧
    ((handleAddAxis axes scaling newId).2 =
      scaling ++ [(axes.length + 1) % 2 != 0]) ∧
    (scaling.length = axes.length + 1 →
      (handleAddAxis axes scaling newId).2.length =
        (handleAddAxis axes scaling newId).1.length + 1) ∧
    ((handleDeleteAxis axes scaling id).2 = scaling.dropLast) ∧
    (∀ i, i + 1 < scaling.length →
      (handleDeleteAxis axes scaling id).2.getD i false =
        scaling.getD i false) ∧
    (scaling.length = axes.length + 1 →
      axes.countP (fun a => a.id = id) = 1 →
      (handleDeleteAxis axes scaling id).2.length =
        (handleDeleteAxis axes scaling id).1.length + 1) := by
  refine ⟨rfl, by simp [handleAddAxis], ?_, rfl, ?_, ?_⟩
  · intro hlen
    simp [handleAddAxis, hlen]
  · intro i hi
    have hi1 : i < scaling.dropLast.length := by
      rw [List.length_dropLast]; omega
    have hi2 : i < scaling.length := by omega
    show scaling.dropLast.getD i false = scaling.getD i false
    rw [List.getD_eq_getElem?_getD, List.getD_eq_getElem?_getD,
      List.getElem?_eq_getElem hi1, List.getElem?_eq_getElem hi2,
      List.getElem_dropLast]
  · intro hlen hcount
    have hfl := length_filter_ne axes id
    have hpos : 1 ≤ axes.length := by
      have := List.countP_le_length (fun a => decide (a.id = id)) (l := axes)
      omega
    show scaling.dropLast.length = (axes.filter (fun a => a.id ≠ id)).length + 1
    rw [List.length_dropLast]
    omega

/-- Witness for C10 on one axis `"a"` with flags `[false, true]`: adding
keeps the invariant, deleting `"a"` keeps flag 0 and the invariant. -/
theorem axis_scaling_sync_witness :
    ((handleAddAxis [⟨"a", 10⟩] [false, true] "b").2.length =
      (handleAddAxis [⟨"a", 10⟩] [false, true] "b").1.length + 1) ∧
    ((handleDeleteAxis [⟨"a", 10⟩] [false, true] "a").2.getD 0 false =
      ([false, true] : List Bool).getD 0 false) ∧
    ((handleDeleteAxis [⟨"a", 10⟩] [false, true] "a").2.length =
      (handleDeleteAxis [⟨"a", 10⟩] [false, true] "a").1.length + 1) :=
  ⟨(axis_scaling_sync [⟨"a", 10⟩] [false, true] "b" "a").2.2.1 (by decide),
   (axis_scaling_sync [⟨"a", 10⟩] [false, true] "b" "a").2.2.2.2.1 0 (by decide),
   (axis_scaling_sync [⟨"a", 10⟩] [false, true] "b" "a").2.2.2.2.2
     (by decide) (by decide)⟩

/-! ### C7: totality of the partitioner and layout engine -/

/-- `segLoop` never emits more segments than it has boundaries. -/
theorem segLoop_length_le (scal : List Bool) :
    ∀ (bs : List ℚ) (i : ℕ) (cursor : ℚ),
      (segLoop scal bs i cursor).length ≤ bs.length := by
  intro bs
  induction bs with
  | nil => intro i cursor; simp [segLoop]
  | cons b rest ih =>
    intro i cursor
    by_cases h : 0 < b - cursor
    · simpa [segLoop, h] using Nat.succ_le_succ (ih (i + 1) b)
    · simpa [segLoop, h] using le_trans (ih (i + 1) b) (Nat.le_succ _)

/-- C7: `calculateSegments` and `calculateDestinationSegments` are total:
on every input (empty axis lists, any total size, any scaling array, any
segment list) they return well-defined lists — at most `axes.length + 1`
segments, and exactly one destination segment per source segment — and the
zero-total-scalable-length guard makes every scalable destination length 0
instead of dividing by zero. -/
theorem segments_total (axes : List Axis) (totalSize : ℚ)
    (scalingArray : List Bool) (src : List Segment) (targetSize : ℚ) :
    (calculateSegments axes totalSize scalingArray).length ≤ axes.length + 1 ∧
    (calculateDestinationSegments src targetSize).length = src.length ∧
    (totalScaleOf src = 0 →
      ∀ p ∈ src.zip (calculateDestinationSegments src targetSize),
        p.1.isFixed = false → p.2.length = 0) := by
  refine ⟨?_, ?_, ?_⟩
  · have h := segLoop_length_le scalingArray (boundariesOf axes totalSize) 0 0
    have hb : (boundariesOf axes totalSize).length = axes.length + 1 := by
      simp [boundariesOf, sortAxes, List.length_mergeSort]
    rw [calculateSegments]
    omega
  · simp only [calculateDestinationSegments]
    exact destLoop_length _ _ _ src 0
  · intro hts p hp hscal
    simp only [calculateDestinationSegments] at hp
    have h := destLoop_zip_length _ _ _ src 0 p hp
    rw [h, destLengthOf, hscal]
    simp [hts]

/-- Witness for C7: no axes over a width-5 image with an empty scaling
array give at most one segment; a single zero-length scalable source
segment has one destination segment of length 0 under the zero-weight
guard. -/
theorem segments_total_witness :
    (calculateSegments [] 5 []).length ≤ 0 + 1 ∧
    (calculateDestinationSegments [⟨0, 0, false, 0⟩] 7).length = 1 ∧
    (⟨(0:ℚ), 0, 0⟩ : DestSegment).length = 0 := by
  refine ⟨(segments_total [] 5 [] [⟨0, 0, false, 0⟩] 7).1,
    (segments_total [] 5 [] [⟨0, 0, false, 0⟩] 7).2.1,
    (segments_total [] 5 [] [⟨0, 0, false, 0⟩] 7).2.2 ?_
      ((⟨0, 0, false, 0⟩ : Segment), (⟨0, 0, 0⟩ : DestSegment)) ?_ rfl⟩
  · norm_num [totalScaleOf]
  · norm_num [calculateDestinationSegments, destLoop, destLengthOf,
      totalFixedOf, totalScaleOf]

/-! ### C1: destination lengths sum to the target size -/

/-- C1 counterexample: with a single fixed segment of length 10 and target
size 20 (so `S ≥ totalFixed` but there is no scalable segment), the
destination lengths sum to 10, not to the target 20. -/
theorem dest_sum_fails_without_scalables :
    ¬ (∀ (src : List Segment) (S : ℚ), totalFixedOf src ≤ S →
        ((calculateDestinationSegments src S).map (fun d => d.length)).sum =
          S) := by
  intro h
  have h10 := h [⟨0, 10, true, 0⟩] 20 (by norm_num [totalFixedOf])
  norm_num [calculateDestinationSegments, destLoop, destLengthOf,
    totalFixedOf, totalScaleOf] at h10

/-- C1 amended: for `S ≥ totalFixed`, every fixed segment's destination
length equals its source length exactly, with no further hypothesis; the
destination lengths sum to `S` provided the scalable segments have nonzero
total source length (or there is nothing to fill, `S = totalFixed`); and
when the scalable segments have zero total source length, the destination
lengths sum to `totalFixed` instead — hence not to `S` whenever
`S > totalFixed`. -/
theorem dest_sum_eq_target (src : List Segment) (S : ℚ)
    (hS : totalFixedOf src ≤ S) :
    (∀ p ∈ src.zip (calculateDestinationSegments src S),
      p.1.isFixed = true → p.2.length = p.1.length) ∧
    (totalScaleOf src ≠ 0 ∨ S = totalFixedOf src →
      ((calculateDestinationSegments src S).map (fun d => d.length)).sum = S) ∧
    (totalScaleOf src = 0 →
      ((calculateDestinationSegments src S).map (fun d => d.length)).sum =
        totalFixedOf src) := by
  have hnot : ¬ S < totalFixedOf src := not_lt.mpr hS
  have hsf : (if S < totalFixedOf src then S / totalFixedOf src else 1) = 1 :=
    if_neg hnot
  have hav : max 0 (S - totalFixedOf src) = S - totalFixedOf src :=
    max_eq_right (sub_nonneg.mpr hS)
  have hmap : (calculateDestinationSegments src S).map (fun d => d.length) =
      src.map (destLengthOf 1 (S - totalFixedOf src) (totalScaleOf src)) := by
    simp only [calculateDestinationSegments, hsf, hav]
    exact destLoop_map_length _ _ _ src 0
  have hfix : ((src.filter (fun s => s.isFixed)).map
      (destLengthOf 1 (S - totalFixedOf src) (totalScaleOf src))).sum =
      totalFixedOf src := by
    rw [totalFixedOf, List.map_congr_left]
    intro s hs
    have := (List.mem_filter.mp hs).2
    simp [destLengthOf, this]
  have hsplit : ((calculateDestinationSegments src S).map
      (fun d => d.length)).sum =
      totalFixedOf src + ((src.filter (fun s => !s.isFixed)).map
        (destLengthOf 1 (S - totalFixedOf src) (totalScaleOf src))).sum := by
    rw [hmap, ← sum_map_split (fun s => s.isFixed), hfix]
  have hzero : totalScaleOf src = 0 →
      ((src.filter (fun s => !s.isFixed)).map
        (destLengthOf 1 (S - totalFixedOf src) (totalScaleOf src))).sum = 0 := by
    intro hts
    have hmapz : (src.filter (fun s => !s.isFixed)).map
        (destLengthOf 1 (S - totalFixedOf src) (totalScaleOf src)) =
        (src.filter (fun s => !s.isFixed)).map (fun _ => (0 : ℚ)) := by
      apply List.map_congr_left
      intro s hs
      have := (List.mem_filter.mp hs).2
      simp only [Bool.not_eq_eq_eq_not, Bool.not_true] at this
      simp [destLengthOf, this, hts]
    rw [hmapz]
    simp
  refine ⟨?_, ?_, ?_⟩
  · intro p hp hf
    simp only [calculateDestinationSegments, hsf, hav] at hp
    have h := destLoop_zip_length _ _ _ src 0 p hp
    rw [h, destLengthOf, hf]
    simp
  · intro hsc
    rcases eq_or_ne (totalScaleOf src) 0 with hts | hts
    · have hSeq : S = totalFixedOf src := hsc.resolve_left (by simp [hts])
      rw [hsplit, hzero hts, hSeq]
      ring
    · have hcong : (src.filter (fun s => !s.isFixed)).map
          (destLengthOf 1 (S - totalFixedOf src) (totalScaleOf src)) =
          (src.filter (fun s => !s.isFixed)).map
            (fun s => s.length * ((S - totalFixedOf src) / totalScaleOf src)) := by
        apply List.map_congr_left
        intro s hs
        have := (List.mem_filter.mp hs).2
        simp only [Bool.not_eq_eq_eq_not, Bool.not_true] at this
        simp only [destLengthOf, this, Bool.false_eq_true, if_false, hts,
          ite_false]
        rw [div_mul_eq_mul_div, mul_div_assoc]
      rw [hsplit, hcong, List.sum_map_mul_right, ← totalScaleOf]
      field_simp
  · intro hts
    rw [hsplit, hzero hts]
    ring

/-- Witness for C1 (amended): one fixed segment of length 10 plus one
scalable segment of length 5 at target 20 keep the fixed source length 10
and sum to 20; the fixed-only list at target 20 — the counterexample's
input — sums to its `totalFixed` of 10 instead. -/
theorem dest_sum_eq_target_witness :
    ((⟨(0:ℚ), 10, 0⟩ : DestSegment).length =
      (⟨(0:ℚ), 10, true, 0⟩ : Segment).length) ∧
    (((calculateDestinationSegments [⟨0, 10, true, 0⟩, ⟨10, 5, false, 1⟩]
        20).map (fun d => d.length)).sum = 20) ∧
    (((calculateDestinationSegments [⟨0, 10, true, 0⟩] 20).map
        (fun d => d.length)).sum = totalFixedOf [⟨0, 10, true, 0⟩]) := by
  refine ⟨(dest_sum_eq_target [⟨0, 10, true, 0⟩, ⟨10, 5, false, 1⟩] 20 ?_).1
      ((⟨0, 10, true, 0⟩ : Segment), (⟨0, 10, 0⟩ : DestSegment)) ?_ rfl,
    (dest_sum_eq_target [⟨0, 10, true, 0⟩, ⟨10, 5, false, 1⟩] 20 ?_).2.1
      (Or.inl (by norm_num [totalScaleOf])),
    (dest_sum_eq_target [⟨0, 10, true, 0⟩] 20 ?_).2.2
      (by norm_num [totalScaleOf])⟩
  · norm_num [totalFixedOf]
  · norm_num [calculateDestinationSegments, destLoop, destLengthOf,
      totalFixedOf, totalScaleOf]
  · norm_num [totalFixedOf]
  · norm_num [totalFixedOf]

/-! ### C5: proportional distribution over scalable segments -/

/-- `getD` of a mapped list at an in-range index is the function applied to
the element there. -/
theorem getD_map_eq (l : List Segment) (f : Segment → ℚ) (k : ℕ)
    (hk : k < l.length) : (l.map f).getD k 0 = f l[k] := by
  rw [List.getD_eq_getElem?_getD, List.getElem?_map,
    List.getElem?_eq_getElem hk]
  rfl

/-- C5 counterexample: with two scalable segments of lengths 1 and 2 and
target size 0, both destination lengths are 0, so the destination ratio is
`0 / 0 = 0` while the source ratio is `1 / 2` — the proportionality claim
fails for target size 0. -/
theorem proportional_fails_at_zero_target :
    ¬ (∀ (src : List Segment) (S : ℚ),
        (∀ s ∈ src, s.isFixed = false) →
        ∀ i j : ℕ, i < src.length → j < src.length →
          (src.map (fun s => s.length)).getD i 0 ≠ 0 →
          (src.map (fun s => s.length)).getD j 0 ≠ 0 →
          ((calculateDestinationSegments src S).map
              (fun d => d.length)).getD i 0 /
            ((calculateDestinationSegments src S).map
              (fun d => d.length)).getD j 0 =
          (src.map (fun s => s.length)).getD i 0 /
            (src.map (fun s => s.length)).getD j 0) := by
  intro h
  have h01 := h [⟨0, 1, false, 0⟩, ⟨1, 2, false, 1⟩] 0 ?_ 0 1
    (by norm_num) (by norm_num) (by norm_num) (by norm_num)
  · norm_num [calculateDestinationSegments, destLoop, destLengthOf,
      totalFixedOf, totalScaleOf] at h01
  · intro s hs
    simp only [List.mem_cons, List.not_mem_nil, or_false] at hs
    rcases hs with rfl | rfl <;> rfl

/-- C5 amended: when all segments are scalable, their source lengths are
nonnegative and the target size is positive, the destination lengths are
proportional to the source lengths at every pair of indices with nonzero
source length. -/
theorem proportional_distribution (src : List Segment) (S : ℚ)
    (hscal : ∀ s ∈ src, s.isFixed = false)
    (hnn : ∀ s ∈ src, 0 ≤ s.length) (hS : 0 < S)
    (i j : ℕ) (hi : i < src.length) (hj : j < src.length)
    (hli : (src.map (fun s => s.length)).getD i 0 ≠ 0)
    (hlj : (src.map (fun s => s.length)).getD j 0 ≠ 0) :
    ((calculateDestinationSegments src S).map (fun d => d.length)).getD i 0 /
      ((calculateDestinationSegments src S).map (fun d => d.length)).getD j 0 =
    (src.map (fun s => s.length)).getD i 0 /
      (src.map (fun s => s.length)).getD j 0 := by
  have htf : totalFixedOf src = 0 := by
    rw [totalFixedOf, List.filter_eq_nil_iff.mpr (by intro a ha; simp [hscal a ha])]
    rfl
  have hts : totalScaleOf src = (src.map (fun s => s.length)).sum := by
    rw [totalScaleOf, List.filter_eq_self.mpr (by intro a ha; simp [hscal a ha])]
  rw [getD_map_eq src _ i hi] at hli
  rw [getD_map_eq src _ j hj] at hlj
  have hipos : 0 < src[i].length :=
    lt_of_le_of_ne (hnn src[i] (List.getElem_mem hi)) (Ne.symm hli)
  have htspos : 0 < totalScaleOf src := by
    rw [hts]
    exact lt_of_lt_of_le hipos
      (List.single_le_sum
        (by intro x hx
            obtain ⟨s, hs, rfl⟩ := List.mem_map.mp hx
            exact hnn s hs)
        _ (List.mem_map_of_mem _ (List.getElem_mem hi)))
  have htsne : totalScaleOf src ≠ 0 := ne_of_gt htspos
  have hdest : (calculateDestinationSegments src S).map (fun d => d.length) =
      src.map (fun s => s.length / totalScaleOf src * S) := by
    have hsf : (if S < totalFixedOf src then S / totalFixedOf src else 1) = 1 := by
      rw [htf]
      exact if_neg (not_lt.mpr (le_of_lt hS))
    have hav : max 0 (S - totalFixedOf src) = S := by
      rw [htf, sub_zero]
      exact max_eq_right (le_of_lt hS)
    simp only [calculateDestinationSegments, hsf, hav]
    rw [destLoop_map_length]
    apply List.map_congr_left
    intro s hsrc
    simp [destLengthOf, hscal s hsrc, htsne]
  rw [hdest, getD_map_eq _ _ i hi, getD_map_eq _ _ j hj,
    getD_map_eq src _ i hi, getD_map_eq src _ j hj]
  have hSne : S ≠ 0 := ne_of_gt hS
  field_simp
  ring

/-- Witness for C5 (amended): scalable lengths 1 and 2 at target 6 give
destination lengths 2 and 4, and `2 / 4 = 1 / 2`. -/
theorem proportional_distribution_witness :
    ((calculateDestinationSegments [⟨0, 1, false, 0⟩, ⟨1, 2, false, 1⟩]
        6).map (fun d => d.length)).getD 0 0 /
      ((calculateDestinationSegments [⟨0, 1, false, 0⟩, ⟨1, 2, false, 1⟩]
        6).map (fun d => d.length)).getD 1 0 =
    (([⟨0, 1, false, 0⟩, ⟨1, 2, false, 1⟩] : List Segment).map
        (fun s => s.length)).getD 0 0 /
      (([⟨0, 1, false, 0⟩, ⟨1, 2, false, 1⟩] : List Segment).map
        (fun s => s.length)).getD 1 0 := by
  refine proportional_distribution [⟨0, 1, false, 0⟩, ⟨1, 2, false, 1⟩] 6
    ?_ ?_ (by norm_num) 0 1 (by norm_num) (by norm_num)
    (by norm_num) (by norm_num)
  · intro s hs
    simp only [List.mem_cons, List.not_mem_nil, or_false] at hs
    rcases hs with rfl | rfl <;> rfl
  · intro s hs
    simp only [List.mem_cons, List.not_mem_nil, or_false] at hs
    rcases hs with rfl | rfl <;> norm_num

/-! ### C2: partitioned segments tile the source dimension -/

/-- The walking loop of `calculateSegments`, under monotone boundaries that
start at or after the cursor: the emitted lengths telescope to
`last boundary - cursor`, all emitted lengths are positive, adjacent
segments are contiguous, and the first emitted segment starts at the
cursor. -/
theorem segLoop_inv (scal : List Bool) :
    ∀ (bs : List ℚ) (i : ℕ) (cursor : ℚ), List.Chain (· ≤ ·) cursor bs →
      (((segLoop scal bs i cursor).map (fun s => s.length)).sum =
        bs.getLastD cursor - cursor) ∧
      (∀ s ∈ segLoop scal bs i cursor, 0 < s.length) ∧
      List.Chain' (fun s t => s.start + s.length = t.start)
        (segLoop scal bs i cursor) ∧
      (∀ s ∈ (segLoop scal bs i cursor).head?, s.start = cursor) := by
  intro bs
  induction bs with
  | nil =>
    intro i cursor _
    refine ⟨by simp [segLoop], by simp [segLoop], by simp [segLoop], ?_⟩
    intro s hs
    simp [segLoop] at hs
  | cons b rest ih =>
    intro i cursor hch
    rw [List.chain_cons] at hch
    obtain ⟨hcb, hrest⟩ := hch
    obtain ⟨ihsum, ihpos, ihchain, ihhead⟩ := ih (i + 1) b hrest
    by_cases h : 0 < b - cursor
    · refine ⟨?_, ?_, ?_, ?_⟩
      · simp only [segLoop, h, if_pos, List.map_cons, List.sum_cons,
          List.getLastD_cons, ihsum]
        ring
      · intro s hs
        simp only [segLoop, h, if_pos, List.mem_cons] at hs
        rcases hs with rfl | hs
        · exact h
        · exact ihpos s hs
      · simp only [segLoop, h, if_pos]
        rw [List.chain'_cons']
        refine ⟨?_, ihchain⟩
        intro y hy
        rw [ihhead y hy]
        ring
      · intro s hs
        simp only [segLoop, h, if_pos, List.head?_cons, Option.mem_some_iff] at hs
        rw [← hs]
      -- start of the emitted head is the cursor
    · have hbc : b = cursor := le_antisymm (by linarith [not_lt.mp h]) hcb
      have hstep : segLoop scal (b :: rest) i cursor =
          segLoop scal rest (i + 1) b := by
        simp only [segLoop]
        rw [if_neg h]
      refine ⟨?_, ?_, ?_, ?_⟩
      · rw [hstep, ihsum, List.getLastD_cons, hbc]
      · intro s hs
        rw [hstep] at hs
        exact ihpos s hs
      · rw [hstep]
        exact ihchain
      · intro s hs
        rw [hstep] at hs
        rw [ihhead s hs, hbc]

/-- The sorted axis list is pairwise ascending in `value`. -/
theorem sortAxes_pairwise (axes : List Axis) :
    (sortAxes axes).Pairwise (fun a b => a.value ≤ b.value) := by
  have h := @List.sorted_mergeSort Axis
    (fun a b : Axis => decide (a.value ≤ b.value))
    (by intro a b c hab hbc
        simp only [decide_eq_true_eq] at hab hbc ⊢
        exact le_trans hab hbc)
    (by intro a b
        simp only [Bool.or_eq_true, decide_eq_true_eq]
        exact le_total a.value b.value)
    axes
  exact h.imp (by intro a b hab; exact of_decide_eq_true hab)

/-- Sorting does not change which axes occur in the list. -/
theorem mem_sortAxes (axes : List Axis) (a : Axis) :
    a ∈ sortAxes axes ↔ a ∈ axes :=
  (List.mergeSort_perm axes _).mem_iff

/-- Building the boundary chain: mapping a value-sorted, in-range axis list
to pixel boundaries and appending the total size yields a monotone chain
from any cursor below all the boundaries. -/
theorem chain_boundaries (T : ℚ) (hT : 0 < T) :
    ∀ (l : List Axis), (∀ a ∈ l, 0 ≤ a.value ∧ a.value ≤ 100) →
      l.Pairwise (fun a b => a.value ≤ b.value) →
      ∀ c : ℚ, c ≤ T → (∀ a ∈ l, c ≤ a.value / 100 * T) →
      List.Chain (· ≤ ·) c (l.map (fun a => a.value / 100 * T) ++ [T]) := by
  intro l
  induction l with
  | nil =>
    intro _ _ c hcT _
    simpa using List.Chain.cons hcT List.Chain.nil
  | cons a l ih =>
    intro hrange hpw c hcT hbelow
    rw [List.map_cons, List.cons_append, List.chain_cons]
    obtain ⟨ha0, ha100⟩ := hrange a (by simp)
    have hfa_le_T : a.value / 100 * T ≤ T := by
      calc a.value / 100 * T ≤ 1 * T :=
            mul_le_mul_of_nonneg_right
              ((div_le_one (by norm_num)).mpr ha100) (le_of_lt hT)
        _ = T := one_mul T
    obtain ⟨hhead, hpw2⟩ := List.pairwise_cons.mp hpw
    refine ⟨hbelow a (by simp), ih ?_ hpw2 _ hfa_le_T ?_⟩
    · intro b hb
      exact hrange b (by simp [hb])
    · intro b hb
      have hab := hhead b hb
      have : a.value / 100 ≤ b.value / 100 := by linarith
      exact mul_le_mul_of_nonneg_right this (le_of_lt hT)

/-- Contiguity plus positive lengths gives strictly ascending starts. -/
theorem chain_start_lt (l : List Segment)
    (hc : List.Chain' (fun s t => s.start + s.length = t.start) l)
    (hp : ∀ s ∈ l, 0 < s.length) :
    List.Chain' (fun s t => s.start < t.start) l := by
  induction l with
  | nil => simp
  | cons a l ih =>
    cases l with
    | nil => simp
    | cons b l2 =>
      rw [List.chain'_cons] at hc ⊢
      refine ⟨?_, ih hc.2 (fun s hs => hp s (by simp [List.mem_cons] at hs ⊢; tauto))⟩
      have := hp a (by simp)
      linarith [hc.1]

/-- C2: for axis values in `[0,100]` and total size `T > 0`, the segments
of `calculateSegments` have lengths summing to `T`, are mutually contiguous
(`start + length` of one is the `start` of the next), are strictly
ascending in `start`, and zero-length segments are dropped (every emitted
length is positive). -/
theorem calculateSegments_spec (axes : List Axis) (T : ℚ) (scal : List Bool)
    (hT : 0 < T) (hrange : ∀ a ∈ axes, 0 ≤ a.value ∧ a.value ≤ 100) :
    (((calculateSegments axes T scal).map (fun s => s.length)).sum = T) ∧
    List.Chain' (fun s t => s.start + s.length = t.start)
      (calculateSegments axes T scal) ∧
    List.Chain' (fun s t => s.start < t.start)
      (calculateSegments axes T scal) ∧
    (∀ s ∈ calculateSegments axes T scal, 0 < s.length) := by
  have hrange2 : ∀ a ∈ sortAxes axes, 0 ≤ a.value ∧ a.value ≤ 100 := by
    intro a ha
    exact hrange a ((mem_sortAxes axes a).mp ha)
  have hchain : List.Chain (· ≤ ·) 0 (boundariesOf axes T) := by
    rw [boundariesOf]
    refine chain_boundaries T hT (sortAxes axes) hrange2 (sortAxes_pairwise axes)
      0 (le_of_lt hT) ?_
    intro a ha
    have h0 := (hrange2 a ha).1
    positivity
  obtain ⟨hsum, hpos, hcont, _⟩ :=
    segLoop_inv scal (boundariesOf axes T) 0 0 hchain
  have hlast : (boundariesOf axes T).getLastD 0 = T := by
    rw [boundariesOf]
    exact List.getLastD_concat _ _ _
  refine ⟨?_, hcont, chain_start_lt _ hcont hpos, hpos⟩
  rw [calculateSegments, hsum, hlast]
  ring

/-- Witness for C2: no axes over total size 200 with scaling `[false]`
produce the single fixed segment `[0, 200)`, whose length sums to 200 and
is positive. -/
theorem calculateSegments_spec_witness :
    (((calculateSegments [] 200 [false]).map (fun s => s.length)).sum = 200) ∧
    (0:ℚ) < (⟨(0:ℚ), 200, true, 0⟩ : Segment).length := by
  have h := calculateSegments_spec [] 200 [false] (by norm_num)
    (by intro a ha; simp at ha)
  refine ⟨h.1, h.2.2.2 ⟨0, 200, true, 0⟩ ?_⟩
  have : calculateSegments [] 200 [false] = [⟨0, 200, true, 0⟩] := by
    norm_num [calculateSegments, boundariesOf, sortAxes, segLoop,
      List.mergeSort_nil]
  rw [this]
  simp

/-! ### C3: dense export then import preserves effective modes -/

/-- `getEffectiveTileMode` is `effectiveConfigOfKey` at the cell's key. -/
theorem getEffectiveTileMode_eq_key (tiles : TileMap) (row col : ℕ) :
    getEffectiveTileMode tiles row col =
      (effectiveConfigOfKey tiles (tileKey row col)).mode := rfl

/-- In an association list whose every entry's value is a fixed function of
its key, looking up any key that occurs returns that function of the key —
even if the key occurs more than once. -/
theorem lookup_of_forall_eq (f : String → TileConfig) :
    ∀ (l : List (String × TileConfig)), (∀ e ∈ l, e.2 = f e.1) →
      ∀ k, k ∈ l.map Prod.fst → l.lookup k = some (f k) := by
  intro l
  induction l with
  | nil =>
    intro _ k hk
    simp at hk
  | cons e rest ih =>
    intro hall k hk
    obtain ⟨k0, v0⟩ := e
    rw [List.lookup_cons]
    by_cases hek : k = k0
    · subst hek
      have hv := hall (k, v0) (by simp)
      simp only at hv
      simp [hv]
    · have hbeq : (k == k0) = false := beq_eq_false_iff_ne.mpr hek
      simp only [hbeq]
      refine ih (fun e he => hall e (by simp [he])) k ?_
      simp only [List.map_cons, List.mem_cons] at hk
      exact hk.resolve_left hek

/-- Every entry of the densified export stores the source map's effective
config for its key. -/
theorem denseTiles_entries (tiles : TileMap) (R C : ℕ) :
    ∀ e ∈ denseTiles tiles R C, e.2 = effectiveConfigOfKey tiles e.1 := by
  intro e he
  rw [denseTiles] at he
  simp only [List.mem_flatMap, List.mem_map, List.mem_range] at he
  obtain ⟨r, hr, c, hc, rfl⟩ := he
  rfl

/-- Every in-range cell's key occurs in the densified export. -/
theorem denseTiles_key_mem (tiles : TileMap) (R C r c : ℕ)
    (hr : r < R) (hc : c < C) :
    tileKey r c ∈ (denseTiles tiles R C).map Prod.fst := by
  refine List.mem_map_of_mem Prod.fst (l := denseTiles tiles R C)
    (a := (tileKey r c, ⟨getEffectiveTileMode tiles r c⟩)) ?_
  rw [denseTiles]
  simp only [List.mem_flatMap, List.mem_map, List.mem_range]
  exact ⟨r, hr, c, hc, rfl⟩

/-- C3: exporting the document with `generateJSON` (which densifies the tile
map over the `(yAxes.length + 1) × (xAxes.length + 1)` grid) and re-loading
it with `handleLoadJson` yields a tile map with the same effective mode at
every in-range cell as the original sparse map. -/
theorem tiles_roundtrip (s s0 : AppState) (r c : ℕ)
    (hr : r < s.yAxes.length + 1) (hc : c < s.xAxes.length + 1) :
    getEffectiveTileMode (handleLoadJson s0 (generateJSON s)).tiles r c =
      getEffectiveTileMode s.tiles r c := by
  have htiles : (handleLoadJson s0 (generateJSON s)).tiles =
      denseTiles s.tiles (s.yAxes.length + 1) (s.xAxes.length + 1) := by
    simp [handleLoadJson, generateJSON, sortAxes, List.length_mergeSort]
  rw [htiles, getEffectiveTileMode,
    lookup_of_forall_eq (effectiveConfigOfKey s.tiles) _
      (denseTiles_entries s.tiles _ _) _
      (denseTiles_key_mem s.tiles _ _ r c hr hc)]
  rfl

/-- Witness for C3: a document with one x-axis and no y-axes, whose only
explicit tile is `(0,1) = Hidden`, round-trips the effective mode of cell
`(0, 1)`. -/
theorem tiles_roundtrip_witness :
    getEffectiveTileMode
      (handleLoadJson
        ⟨"g", [], [], [], [], []⟩
        (generateJSON
          ⟨"f", [⟨"x1", 33⟩], [], [("0-1", ⟨TileMode.Hidden⟩)],
            [false], [false, true]⟩)).tiles 0 1 =
      getEffectiveTileMode
        ([("0-1", ⟨TileMode.Hidden⟩)] : TileMap) 0 1 :=
  tiles_roundtrip
    ⟨"f", [⟨"x1", 33⟩], [], [("0-1", ⟨TileMode.Hidden⟩)], [false], [false, true]⟩
    ⟨"g", [], [], [], [], []⟩ 0 1 (by decide) (by decide)

end SlicedImage
